import Mathlib

/-!
Shallow embedding of `run_eval_prm_trl.py` from the ProcessBench PRM
evaluation script, together with proofs of the specification's claims
about it.

The tokenizer and the model are external collaborators (the spec scopes
them out); they are modelled as opaque function parameters:
  * `tok : String → List Nat` maps text to a token-id sequence
    (the `[1, L]` tensor returned by `tokenizer(text)['input_ids']`,
    flattened to a plain list);
  * per-token class logits are modelled as a function from token
    position to the logit vector at that position.
Rational numbers stand in for Python floats; `Option ℚ` marks the
places where float arithmetic can produce a non-finite value (`none`
models the NaN/inf produced by a zero denominator, and the NaN produced
by `np.mean` of an empty list).
-/

namespace ProcessBench

/-- A ProcessBench example: `{problem, steps, label}`.  `label` is the
0-based index of the first incorrect step, or `-1` if all steps are
correct. -/
structure Example where
  problem : String
  steps : List String
  label : Int
deriving Repr, DecidableEq

/-- Result of encoding one example inside `collate_fn`: the running
token sequence and the recorded score positions (`score_ids[-1]` for
this example). -/
structure EncodedExample where
  token_ids : List Nat
  score_positions : List Nat
  label : Int
deriving Repr, DecidableEq

/-- The per-example loop body of `collate_fn`: starting from the
token ids of `problem + separator`, for each step `j` in order append
the token ids of `j + "\n"` and record `input_idx.size(-1) - 1`. -/
def encodeLoop (tok : String → List Nat) : List String → List Nat → List Nat × List Nat
  | [], ids => (ids, [])
  | s :: rest, ids =>
      let ids2 := ids ++ tok (s ++ "\n")
      let r := encodeLoop tok rest ids2
      (r.1, (ids2.length - 1) :: r.2)

/-- Encoding of one example by `collate_fn` (lines 20–30 of the
source): tokenize `problem + separator`, then run the step loop. -/
def collate_encode (tok : String → List Nat) (separator : String) (e : Example) : EncodedExample :=
  let r := encodeLoop tok e.steps (tok (e.problem ++ separator))
  { token_ids := r.1, score_positions := r.2, label := e.label }

/-- Token count contributed to the sequence by everything up to and
including step `k` (0-based): the initial `problem + separator`
tokens plus the tokens of steps `0..k`. -/
def lenThrough (tok : String → List Nat) (initLen : Nat) (steps : List String) (k : Nat) : Nat :=
  initLen + (((steps.take (k + 1)).map (fun s => (tok (s ++ "\n")).length)).sum)

/-- Right padding of one sequence to length `m` with the pad token id
(lines 35–41 of the source). -/
def padTo (padId : Nat) (m : Nat) (ids : List Nat) : List Nat :=
  ids ++ List.replicate (m - ids.length) padId

/-- `max([i.size(-1) for i in input_ids])`, as a fold (the source's
`max` over a nonempty Python list). -/
def batchMaxLen (lens : List Nat) : Nat :=
  lens.foldr max 0

/-- The packed batch returned by `collate_fn`:
`dict(input_ids=…, labels=…, score_ids=…)`. -/
structure PackedBatch where
  input_ids : List (List Nat)
  labels : List Int
  score_ids : List (List Nat)
deriving Repr, DecidableEq

/-- `collate_fn` (lines 16–48 of the source): encode every example of
the batch, compute `max_len`, and right-pad every sequence to
`max_len` with `pad_token_id`; labels and score positions pass
through. -/
def collate_fn (tok : String → List Nat) (separator : String) (padId : Nat)
    (batch : List Example) : PackedBatch :=
  let encs := batch.map (collate_encode tok separator)
  let maxLen := batchMaxLen (encs.map (fun e => e.token_ids.length))
  { input_ids := encs.map (fun e => padTo padId maxLen e.token_ids),
    labels := encs.map (fun e => e.label),
    score_ids := encs.map (fun e => e.score_positions) }

/-- The `max_len` computed by `collate_fn` for a batch of examples. -/
def encMaxLen (tok : String → List Nat) (separator : String) (batch : List Example) : Nat :=
  batchMaxLen ((batch.map (collate_encode tok separator)).map (fun e => e.token_ids.length))

/-- `find_first_zero` (lines 50–52 of the source):
`zeros = (tensor == 0).nonzero()` collects the indices whose entry is
`0`; return `zeros[0].item()` if any, else `-1`. -/
def find_first_zero (tensor : List Int) : Int :=
  let zeros := ((tensor.enumFrom 0).filter (fun p => p.2 == 0)).map Prod.fst
  match zeros with
  | [] => -1
  | i :: _ => (i : Int)

/-- `torch.argmax` over a logit vector: index of the maximal value,
first occurrence on ties. -/
def argmaxAux : List Int → Nat → Int → Nat → Nat
  | [], _, _, best => best
  | x :: xs, idx, bv, best =>
      if bv < x then argmaxAux xs (idx + 1) x idx else argmaxAux xs (idx + 1) bv best

/-- `torch.argmax` on a nonempty logit vector (`0` on the empty one). -/
def argmax : List Int → Nat
  | [] => 0
  | x :: xs => argmaxAux xs 1 x 0

/-- Per-example reduction of the scoring loop (lines 131–134 of the
source): gather the logit vector at each recorded score position,
take the argmax class per step (`pred`), and return
`find_first_zero(pred)`. `logits` maps a token position of this
example's row to its class-logit vector. -/
def predictFor (tok : String → List Nat) (separator : String) (logits : Nat → List Int)
    (e : Example) : Int :=
  find_first_zero
    (((collate_encode tok separator e).score_positions).map (fun p => (argmax (logits p) : Int)))

/-- One scored example of `new_batch` after the loop: the deep copy of
the raw example plus the two fields written onto it
(`new_batch[i]['prediction']` and `new_batch[i]['match']`; the latter
is called `matched` here because `match` is reserved in Lean). -/
structure ScoredExample where
  problem : String
  steps : List String
  label : Int
  prediction : Int
  matched : Bool
deriving Repr, DecidableEq

/-- One iteration of the scoring loop (lines 131–136 of the source):
the deep copy of the raw example with the two derived fields written
onto it, `prediction = prediction_step` and
`match = prediction_step == label`. -/
def scoreOne (tok : String → List Nat) (separator : String) (logits : Nat → List Int)
    (e : Example) : ScoredExample :=
  let pred := predictFor tok separator logits e
  { problem := e.problem, steps := e.steps, label := e.label,
    prediction := pred, matched := pred == e.label }

/-- The scoring loop over a batch (lines 119–138 of the source):
`new_batch = deepcopy(batch_)`; for each example `i`,
`prediction_step = find_first_zero(argmax(logits[i, score_id]))`,
`new_batch[i]['prediction'] = prediction_step`,
`new_batch[i]['match'] = prediction_step == label`.
`logitsRow i` is row `i` of the model's logit grid on the padded
batch, viewed as a function from token position to logit vector. -/
def scoreLoop (tok : String → List Nat) (separator : String)
    (logitsRow : Nat → Nat → List Int) : Nat → List Example → List ScoredExample
  | _, [] => []
  | i, e :: rest =>
      scoreOne tok separator (logitsRow i) e :: scoreLoop tok separator logitsRow (i + 1) rest

/-- Scoring of one batch: run the loop from index 0. -/
def scoreBatch (tok : String → List Nat) (separator : String)
    (logitsRow : Nat → Nat → List Int) (batch : List Example) : List ScoredExample :=
  scoreLoop tok separator logitsRow 0 batch

/-- Modelled from the spec: the shard of worker `w` under the
coordinator's striped partition scheme (worker `w` owns indices
`{i : i mod W == w}`).  The concrete sampler is external library code
(`torch.utils.data.DistributedSampler`, out of the spec's scope);
only the sharding contract itself is specified.  `off` is the index
of the head of the remaining list. -/
def stridedShard {α : Type} (W : Nat) (w : Nat) : Nat → List α → List α
  | _, [] => []
  | off, x :: xs => (if off % W = w then [x] else []) ++ stridedShard W w (off + 1) xs

/-- `gather_objects` (lines 54–67 of the source), seen from the main
process: with one worker the data passes through; otherwise
`all_gather_object` fills one slot per rank and the results are
concatenated in rank order.  Either way the merged result is the
concatenation of the per-worker lists. -/
def gather_objects {α : Type} (worldData : List (List α)) : List α :=
  worldData.flatten

/-- `np.mean(bools) * 100` over the `match` fields of a result subset;
`none` models the NaN that `np.mean` produces on an empty list. -/
def accPercent (l : List Bool) : Option ℚ :=
  if l.length = 0 then none
  else some (((l.countP id : ℚ) / (l.length : ℚ)) * 100)

/-- `f1 = 2 * acc1 * acc2 / (acc1 + acc2)` (line 161 of the source),
computed in floats: when the denominator is zero the float result is
non-finite (NaN when the numerator is also zero, as it is for
non-negative accuracies), modelled as `none`. -/
def f1Score (a b : ℚ) : Option ℚ :=
  if a + b = 0 then none else some (2 * a * b / (a + b))

/-- Lift of the f1 computation to possibly-NaN accuracies: a NaN input
propagates (float arithmetic with NaN yields NaN). -/
def f1Opt : Option ℚ → Option ℚ → Option ℚ
  | some a, some b => f1Score a b
  | _, _ => none

/-- Everything the aggregator produces for one configuration. -/
structure AggregateOutput where
  warnings : List String
  errorFile : List ScoredExample
  correctFile : List ScoredExample
  acc_error : Option ℚ
  acc_correct : Option ℚ
  f1 : Option ℚ
deriving Repr, DecidableEq

/-- The metrics aggregator (lines 143–164 of the source):
`data1 = [e for e in gathered if e['label'] != -1]`,
`data2 = [e for e in gathered if e['label'] == -1]`; if either size
disagrees with the expected count, print a mismatch warning; write
the two result files; compute both accuracies and f1. -/
def aggregate (expectedError expectedCorrect : Nat)
    (gathered : List ScoredExample) : AggregateOutput :=
  let data1 := gathered.filter (fun e => e.label != -1)
  let data2 := gathered.filter (fun e => e.label == -1)
  let warn1 := if data1.length ≠ expectedError then ["error num mismatch"] else []
  let warn2 := if data2.length ≠ expectedCorrect then ["correct num mismatch"] else []
  let acc1 := accPercent (data1.map (fun e => e.matched))
  let acc2 := accPercent (data2.map (fun e => e.matched))
  { warnings := warn1 ++ warn2,
    errorFile := data1,
    correctFile := data2,
    acc_error := acc1,
    acc_correct := acc2,
    f1 := f1Opt acc1 acc2 }

/-- The final token sequence is the initial `problem + separator`
tokens followed by the step tokenizations in order. -/
theorem encodeLoop_fst (tok : String → List Nat) :
    ∀ (steps : List String) (ids : List Nat),
      (encodeLoop tok steps ids).1 = ids ++ (steps.map (fun s => tok (s ++ "\n"))).flatten
  | [], ids => by simp [encodeLoop]
  | s :: rest, ids => by
      simp [encodeLoop, encodeLoop_fst tok rest, List.append_assoc]

/-- One score position is recorded per step. -/
theorem encodeLoop_snd_length (tok : String → List Nat) :
    ∀ (steps : List String) (ids : List Nat),
      (encodeLoop tok steps ids).2.length = steps.length
  | [], _ => rfl
  | _ :: rest, ids => by
      simp [encodeLoop, encodeLoop_snd_length tok rest]

/-- The `k`-th recorded score position is the running length through
step `k`, minus one. -/
theorem encodeLoop_snd_get (tok : String → List Nat) :
    ∀ (steps : List String) (ids : List Nat) (k : Nat), k < steps.length →
      (encodeLoop tok steps ids).2[k]? = some (lenThrough tok ids.length steps k - 1)
  | [], _, k, h => absurd h (Nat.not_lt_zero k)
  | s :: rest, ids, 0, _ => by
      simp [encodeLoop, lenThrough, List.length_append]
  | s :: rest, ids, k + 1, h => by
      have h' : k < rest.length := by simpa using h
      have ih := encodeLoop_snd_get tok rest (ids ++ tok (s ++ "\n")) k h'
      simp only [encodeLoop, List.getElem?_cons_succ, ih]
      simp [lenThrough, List.length_append, List.take_succ_cons, Nat.add_assoc]

/-- Every recorded position is at least the length of the starting
sequence, provided every step tokenizes to at least one token. -/
theorem encodeLoop_pos_lb (tok : String → List Nat) :
    ∀ (steps : List String) (ids : List Nat),
      (∀ s ∈ steps, 1 ≤ (tok (s ++ "\n")).length) →
      ∀ p ∈ (encodeLoop tok steps ids).2, ids.length ≤ p
  | [], ids, _, p, hp => by simp [encodeLoop] at hp
  | s :: rest, ids, H, p, hp => by
      have h1 : 1 ≤ (tok (s ++ "\n")).length := H s (by simp)
      simp only [encodeLoop, List.mem_cons] at hp
      rcases hp with hp | hp
      · subst hp
        simp only [List.length_append]
        omega
      · have hr := encodeLoop_pos_lb tok rest (ids ++ tok (s ++ "\n"))
          (fun t ht => H t (by simp [ht])) p hp
        simp only [List.length_append] at hr
        omega

/-- Every recorded position indexes into the final token sequence,
provided every step tokenizes to at least one token. -/
theorem encodeLoop_pos_ub (tok : String → List Nat) :
    ∀ (steps : List String) (ids : List Nat),
      (∀ s ∈ steps, 1 ≤ (tok (s ++ "\n")).length) →
      ∀ p ∈ (encodeLoop tok steps ids).2, p < (encodeLoop tok steps ids).1.length
  | [], ids, _, p, hp => by simp [encodeLoop] at hp
  | s :: rest, ids, H, p, hp => by
      have h1 : 1 ≤ (tok (s ++ "\n")).length := H s (by simp)
      have Hr : ∀ t ∈ rest, 1 ≤ (tok (t ++ "\n")).length := fun t ht => H t (by simp [ht])
      simp only [encodeLoop, List.mem_cons] at hp ⊢
      have hlen : (encodeLoop tok rest (ids ++ tok (s ++ "\n"))).1.length =
          (ids ++ tok (s ++ "\n")).length +
            ((rest.map (fun t => tok (t ++ "\n"))).flatten).length := by
        rw [encodeLoop_fst tok rest]
        simp [List.length_append, Nat.add_assoc]
      rcases hp with hp | hp
      · subst hp
        simp only [List.length_append] at hlen ⊢
        omega
      · exact encodeLoop_pos_ub tok rest (ids ++ tok (s ++ "\n")) Hr p hp

/-- Recorded score positions are strictly increasing, provided every
step tokenizes to at least one token. -/
theorem encodeLoop_pairwise (tok : String → List Nat) :
    ∀ (steps : List String) (ids : List Nat),
      (∀ s ∈ steps, 1 ≤ (tok (s ++ "\n")).length) →
      List.Pairwise (· < ·) (encodeLoop tok steps ids).2
  | [], ids, _ => by simp [encodeLoop]
  | s :: rest, ids, H => by
      have h1 : 1 ≤ (tok (s ++ "\n")).length := H s (by simp)
      have Hr : ∀ t ∈ rest, 1 ≤ (tok (t ++ "\n")).length := fun t ht => H t (by simp [ht])
      simp only [encodeLoop]
      refine List.Pairwise.cons ?_ (encodeLoop_pairwise tok rest _ Hr)
      intro p hp
      have hlb := encodeLoop_pos_lb tok rest (ids ++ tok (s ++ "\n")) Hr p hp
      simp only [List.length_append] at hlb ⊢
      omega

/-- C1: the encoder tokenizes `problem + separator` first, then
appends each step's tokenization of `step + "\n"` in order, recording
`current_length - 1` after each append; assuming every step tokenizes
to at least one token, `score_positions` has one entry per step, is
strictly increasing, and entry `k` is the index of the last token
contributed by step `k` (the running length through step `k`, minus
one) in the final sequence `init ++ steps' tokenizations`. -/
theorem claimC1 (tok : String → List Nat) (separator : String) (e : Example)
    (H : ∀ s ∈ e.steps, 1 ≤ (tok (s ++ "\n")).length) :
    (collate_encode tok separator e).score_positions.length = e.steps.length ∧
    List.Pairwise (· < ·) (collate_encode tok separator e).score_positions ∧
    (∀ k, k < e.steps.length →
      (collate_encode tok separator e).score_positions[k]? =
        some (lenThrough tok (tok (e.problem ++ separator)).length e.steps k - 1)) ∧
    (collate_encode tok separator e).token_ids =
      tok (e.problem ++ separator) ++ (e.steps.map (fun s => tok (s ++ "\n"))).flatten := by
  refine ⟨?_, ?_, ?_, ?_⟩
  · simpa [collate_encode] using encodeLoop_snd_length tok e.steps (tok (e.problem ++ separator))
  · simpa [collate_encode] using encodeLoop_pairwise tok e.steps (tok (e.problem ++ separator)) H
  · intro k hk
    simpa [collate_encode] using
      encodeLoop_snd_get tok e.steps (tok (e.problem ++ separator)) k hk
  · simpa [collate_encode] using encodeLoop_fst tok e.steps (tok (e.problem ++ separator))

/-- Witness for C1 at a concrete tokenizer (every text maps to the
single token `[7]`) and the example `problem = "p"`,
`steps = ["a", "bb"]`. -/
theorem claimC1_witness :
    (∀ s ∈ (Example.mk "p" ["a", "bb"] 1).steps,
      1 ≤ (((fun (_ : String) => ([7] : List Nat))) (s ++ "\n")).length) ∧
    ((collate_encode (fun _ => [7]) "\n" (Example.mk "p" ["a", "bb"] 1)).score_positions.length =
        (Example.mk "p" ["a", "bb"] 1).steps.length ∧
      List.Pairwise (· < ·)
        (collate_encode (fun _ => [7]) "\n" (Example.mk "p" ["a", "bb"] 1)).score_positions ∧
      (∀ k, k < (Example.mk "p" ["a", "bb"] 1).steps.length →
        (collate_encode (fun _ => [7]) "\n" (Example.mk "p" ["a", "bb"] 1)).score_positions[k]? =
          some (lenThrough (fun _ => [7]) 1 (Example.mk "p" ["a", "bb"] 1).steps k - 1)) ∧
      (collate_encode (fun _ => [7]) "\n" (Example.mk "p" ["a", "bb"] 1)).token_ids =
        [7] ++ ((Example.mk "p" ["a", "bb"] 1).steps.map (fun _ => ([7] : List Nat))).flatten) :=
  ⟨fun _ _ => Nat.le_refl 1,
    claimC1 (fun _ => [7]) "\n" (Example.mk "p" ["a", "bb"] 1) (fun _ _ => Nat.le_refl 1)⟩

/-- C4: an example with an empty steps list encodes to an empty
`score_positions`, and the pipeline's predicted first-error value is
`-1`, whatever the label and the model's logits. -/
theorem claimC4 (tok : String → List Nat) (separator : String) (logits : Nat → List Int)
    (problem : String) (label : Int) :
    (collate_encode tok separator (Example.mk problem [] label)).score_positions = [] ∧
    predictFor tok separator logits (Example.mk problem [] label) = -1 := by
  constructor
  · rfl
  · rfl

/-- If no entry is zero, `(tensor == 0).nonzero()` is empty. -/
theorem ffz_filter_nil :
    ∀ (l : List Int) (n : Nat), (∀ x ∈ l, x ≠ 0) →
      (l.enumFrom n).filter (fun p => p.2 == 0) = []
  | [], _, _ => rfl
  | x :: xs, n, H => by
      have hx : ¬((x == 0) = true) := by simpa using H x (by simp)
      simpa [List.enumFrom, List.filter_cons, hx] using
        ffz_filter_nil xs (n + 1) (fun t ht => H t (by simp [ht]))

/-- If entry `i` is the first zero, the first collected index is `n + i`. -/
theorem ffz_filter_head :
    ∀ (l : List Int) (n i : Nat), l[i]? = some 0 → (∀ j, j < i → l[j]? ≠ some 0) →
      ((l.enumFrom n).filter (fun p => p.2 == 0)).head? = some (n + i, 0)
  | [], _, i, h, _ => by simp at h
  | x :: xs, n, 0, h, _ => by
      have hx : x = 0 := by simpa using h
      subst hx
      simp [List.enumFrom, List.filter_cons]
  | x :: xs, n, i + 1, h, hj => by
      have hx : ¬((x == 0) = true) := by
        have := hj 0 (Nat.succ_pos i)
        simpa using this
      have ih := ffz_filter_head xs (n + 1) i (by simpa using h)
        (fun j hlt => by
          have := hj (j + 1) (Nat.succ_lt_succ hlt)
          simpa using this)
      rw [show n + (i + 1) = n + 1 + i by omega]
      simpa [List.enumFrom, List.filter_cons, hx] using ih

/-- Any collected index points at a zero entry of the tensor. -/
theorem ffz_filter_head_mem :
    ∀ (l : List Int) (n m : Nat) (v : Int),
      ((l.enumFrom n).filter (fun p => p.2 == 0)).head? = some (m, v) →
      ∃ i : Nat, m = n + i ∧ i < l.length ∧ l[i]? = some 0
  | [], _, _, _, h => by simp at h
  | x :: xs, n, m, v, h => by
      by_cases hx : (x == 0) = true
      · have hx' : x = 0 := by simpa using hx
        simp [List.enumFrom, List.filter_cons, hx] at h
        exact ⟨0, by omega, Nat.succ_pos _, by simp [hx']⟩
      · simp only [List.enumFrom, List.filter_cons, if_neg hx] at h
        obtain ⟨i, hi, hlt, hget⟩ := ffz_filter_head_mem xs (n + 1) m v h
        exact ⟨i + 1, by omega, Nat.succ_lt_succ hlt, by simpa using hget⟩

/-- `find_first_zero` either reports no zero (`-1`) or a valid index
of a zero entry. -/
theorem find_first_zero_cases (tensor : List Int) :
    find_first_zero tensor = -1 ∨
    ∃ i : Nat, find_first_zero tensor = (i : Int) ∧ i < tensor.length ∧ tensor[i]? = some 0 := by
  cases hfil : (tensor.enumFrom 0).filter (fun p => p.2 == 0) with
  | nil => exact Or.inl (by simp [find_first_zero, hfil])
  | cons a t =>
      right
      obtain ⟨i, hi, hlt, hget⟩ := ffz_filter_head_mem tensor 0 a.1 a.2 (by simp [hfil])
      refine ⟨i, ?_, hlt, hget⟩
      simp only [find_first_zero, hfil, List.map_cons]
      omega

/-- C3: `find_first_zero` returns the index of the first element equal
to `0` and `-1` when no element is `0`; on `[1, 1, 0, 0]` it returns
`2`. -/
theorem claimC3 (tensor : List Int) :
    ((∀ x ∈ tensor, x ≠ 0) → find_first_zero tensor = -1) ∧
    (∀ i : Nat, tensor[i]? = some 0 → (∀ j : Nat, j < i → tensor[j]? ≠ some 0) →
      find_first_zero tensor = (i : Int)) ∧
    find_first_zero [1, 1, 0, 0] = 2 := by
  refine ⟨?_, ?_, by rfl⟩
  · intro H
    simp [find_first_zero, ffz_filter_nil tensor 0 H]
  · intro i h1 h2
    have hh := ffz_filter_head tensor 0 i h1 h2
    cases hfil : (tensor.enumFrom 0).filter (fun p => p.2 == 0) with
    | nil => rw [hfil] at hh; simp at hh
    | cons a t =>
        rw [hfil] at hh
        simp only [List.head?_cons, Option.some.injEq] at hh
        subst hh
        simp [find_first_zero, hfil]

/-- Witness for C3: on `[5, 3]` (no zero) the result is `-1`, and on
`[1, 1, 0, 0]` the result is the first matching index `2`. -/
theorem claimC3_witness :
    (∀ x ∈ ([5, 3] : List Int), x ≠ 0) ∧ find_first_zero [5, 3] = -1 ∧
      find_first_zero [1, 1, 0, 0] = 2 :=
  ⟨by decide, (claimC3 [5, 3]).1 (by decide), (claimC3 [1, 1, 0, 0]).2.2⟩

/-- C10: the per-example prediction tensor has one entry per step, and
the stored `prediction` is either `-1` or a valid 0-based step index
`p` with `0 ≤ p < len(steps)`. -/
theorem claimC10 (tok : String → List Nat) (separator : String) (logits : Nat → List Int)
    (e : Example) :
    ((collate_encode tok separator e).score_positions.map
        (fun p => (argmax (logits p) : Int))).length = e.steps.length ∧
    (predictFor tok separator logits e = -1 ∨
      (0 ≤ predictFor tok separator logits e ∧
        predictFor tok separator logits e < (e.steps.length : Int))) := by
  have hlen : ((collate_encode tok separator e).score_positions.map
      (fun p => (argmax (logits p) : Int))).length = e.steps.length := by
    simp only [List.length_map]
    simpa [collate_encode] using
      encodeLoop_snd_length tok e.steps (tok (e.problem ++ separator))
  refine ⟨hlen, ?_⟩
  rcases find_first_zero_cases ((collate_encode tok separator e).score_positions.map
      (fun p => (argmax (logits p) : Int))) with hc | ⟨i, heq, hlt, _⟩
  · exact Or.inl hc
  · right
    rw [hlen] at hlt
    constructor
    · rw [show predictFor tok separator logits e = find_first_zero
        ((collate_encode tok separator e).score_positions.map
          (fun p => (argmax (logits p) : Int))) from rfl, heq]
      exact Int.natCast_nonneg i
    · rw [show predictFor tok separator logits e = find_first_zero
        ((collate_encode tok separator e).score_positions.map
          (fun p => (argmax (logits p) : Int))) from rfl, heq]
      exact_mod_cast hlt

/-- Every length in the batch is bounded by `max_len`. -/
theorem le_batchMaxLen :
    ∀ (lens : List Nat), ∀ x ∈ lens, x ≤ batchMaxLen lens
  | [], x, hx => by simp at hx
  | a :: rest, x, hx => by
      rcases List.mem_cons.mp hx with h | h
      · subst h; exact Nat.le_max_left _ _
      · exact Nat.le_trans (le_batchMaxLen rest x h) (Nat.le_max_right _ _)

/-- Right-padding a sequence no longer than `m` yields length `m`. -/
theorem padTo_length (padId m : Nat) (ids : List Nat) (h : ids.length ≤ m) :
    (padTo padId m ids).length = m := by
  simp [padTo]
  omega

/-- C2: `collate_fn` right-pads every sequence of the batch to the
common `max_len` with the pad token id, passes score positions and
labels through unchanged, and (assuming every step tokenizes to at
least one token) every recorded score position of an example is
`< max_len` and indexes a real token of that example's original
sequence (padding does not change the token found there). -/
theorem claimC2 (tok : String → List Nat) (separator : String) (padId : Nat)
    (batch : List Example)
    (H : ∀ e ∈ batch, ∀ s ∈ e.steps, 1 ≤ (tok (s ++ "\n")).length) :
    (∀ ids ∈ (collate_fn tok separator padId batch).input_ids,
      ids.length = encMaxLen tok separator batch) ∧
    (collate_fn tok separator padId batch).labels = batch.map (fun e => e.label) ∧
    (collate_fn tok separator padId batch).score_ids =
      batch.map (fun e => (collate_encode tok separator e).score_positions) ∧
    (∀ e ∈ batch, ∀ p ∈ (collate_encode tok separator e).score_positions,
      p < encMaxLen tok separator batch ∧
      (padTo padId (encMaxLen tok separator batch)
          (collate_encode tok separator e).token_ids)[p]? =
        (collate_encode tok separator e).token_ids[p]?) := by
  have hle : ∀ e ∈ batch,
      (collate_encode tok separator e).token_ids.length ≤ encMaxLen tok separator batch := by
    intro e he
    refine le_batchMaxLen _ _ ?_
    simp only [List.map_map, List.mem_map, Function.comp]
    exact ⟨e, he, rfl⟩
  have hub : ∀ e ∈ batch, ∀ p ∈ (collate_encode tok separator e).score_positions,
      p < (collate_encode tok separator e).token_ids.length := by
    intro e he p hp
    have := encodeLoop_pos_ub tok e.steps (tok (e.problem ++ separator)) (H e he) p
      (by simpa [collate_encode] using hp)
    simpa [collate_encode] using this
  refine ⟨?_, ?_, ?_, ?_⟩
  · intro ids hid
    simp only [collate_fn, List.mem_map] at hid
    obtain ⟨enc, henc, rfl⟩ := hid
    obtain ⟨e, he, rfl⟩ := henc
    exact padTo_length _ _ _ (hle e he)
  · simp only [collate_fn, List.map_map]
    rfl
  · simp only [collate_fn, List.map_map]
    rfl
  · intro e he p hp
    have h1 : p < encMaxLen tok separator batch :=
      Nat.lt_of_lt_of_le (hub e he p hp) (hle e he)
    refine ⟨h1, ?_⟩
    exact List.getElem?_append_left (hub e he p hp)

/-- Witness for C2 at a concrete tokenizer (every text maps to `[7]`)
and a two-example batch. -/
theorem claimC2_witness :
    (∀ e ∈ [Example.mk "p" ["a"] 0, Example.mk "q" ["b", "c"] (-1)],
      ∀ s ∈ e.steps, 1 ≤ (((fun (_ : String) => ([7] : List Nat))) (s ++ "\n")).length) ∧
    ((∀ ids ∈ (collate_fn (fun _ => [7]) "\n" 9
        [Example.mk "p" ["a"] 0, Example.mk "q" ["b", "c"] (-1)]).input_ids,
      ids.length = encMaxLen (fun _ => [7]) "\n"
        [Example.mk "p" ["a"] 0, Example.mk "q" ["b", "c"] (-1)]) ∧
    (collate_fn (fun _ => [7]) "\n" 9
        [Example.mk "p" ["a"] 0, Example.mk "q" ["b", "c"] (-1)]).labels =
      [Example.mk "p" ["a"] 0, Example.mk "q" ["b", "c"] (-1)].map (fun e => e.label) ∧
    (collate_fn (fun _ => [7]) "\n" 9
        [Example.mk "p" ["a"] 0, Example.mk "q" ["b", "c"] (-1)]).score_ids =
      [Example.mk "p" ["a"] 0, Example.mk "q" ["b", "c"] (-1)].map
        (fun e => (collate_encode (fun _ => [7]) "\n" e).score_positions) ∧
    (∀ e ∈ [Example.mk "p" ["a"] 0, Example.mk "q" ["b", "c"] (-1)],
      ∀ p ∈ (collate_encode (fun _ => [7]) "\n" e).score_positions,
      p < encMaxLen (fun _ => [7]) "\n"
          [Example.mk "p" ["a"] 0, Example.mk "q" ["b", "c"] (-1)] ∧
      (padTo 9 (encMaxLen (fun _ => [7]) "\n"
            [Example.mk "p" ["a"] 0, Example.mk "q" ["b", "c"] (-1)])
          (collate_encode (fun _ => [7]) "\n" e).token_ids)[p]? =
        (collate_encode (fun _ => [7]) "\n" e).token_ids[p]?)) :=
  ⟨fun _ _ _ _ => Nat.le_refl 1,
    claimC2 (fun _ => [7]) "\n" 9 [Example.mk "p" ["a"] 0, Example.mk "q" ["b", "c"] (-1)]
      (fun _ _ _ _ => Nat.le_refl 1)⟩

/-- The multiset of a flattened list of lists is the sum of the
multisets of its parts. -/
theorem coe_flatten {α : Type} :
    ∀ (l : List (List α)), ((l.flatten : List α) : Multiset α) =
      (l.map Multiset.ofList).sum
  | [] => rfl
  | a :: t => by
      simp only [List.flatten_cons, List.map_cons, List.sum_cons, ← coe_flatten t,
        Multiset.coe_add]

/-- A sum over `List.range` is the corresponding `Finset.range` sum. -/
theorem listRangeMapSum {M : Type} [AddCommMonoid M] (f : Nat → M) :
    ∀ n : Nat, ((List.range n).map f).sum = (Finset.range n).sum f
  | 0 => by simp
  | n + 1 => by
      simp [List.range_succ, Finset.sum_range_succ, listRangeMapSum f n]

/-- The striped shards of a list form a partition: summed as
multisets over all `W` workers they give back exactly the original
list. -/
theorem stridedShard_sum {α : Type} (W : Nat) (hW : 0 < W) :
    ∀ (data : List α) (off : Nat),
      (Finset.range W).sum (fun w => ((stridedShard W w off data : List α) : Multiset α)) =
        (data : Multiset α)
  | [], _ => by simp [stridedShard]
  | x :: xs, off => by
      have hcons : ∀ w, stridedShard W w off (x :: xs) =
          (if off % W = w then [x] else []) ++ stridedShard W w (off + 1) xs :=
        fun _ => rfl
      have hsplit : ∀ w, (((if off % W = w then [x] else []) ++
            stridedShard W w (off + 1) xs : List α) : Multiset α) =
          (((if off % W = w then [x] else []) : List α) : Multiset α) +
            ((stridedShard W w (off + 1) xs : List α) : Multiset α) :=
        fun w => (Multiset.coe_add _ _).symm
      have hite : ∀ w, (((if off % W = w then [x] else []) : List α) : Multiset α) =
          if off % W = w then ({x} : Multiset α) else 0 := by
        intro w
        by_cases h : off % W = w <;> simp [h]
      rw [Finset.sum_congr rfl (fun w _ => by rw [hcons w, hsplit w, hite w])]
      rw [Finset.sum_add_distrib, stridedShard_sum W hW xs (off + 1)]
      rw [Finset.sum_ite_eq (Finset.range W) (off % W) (fun _ => ({x} : Multiset α))]
      simp [Finset.mem_range.mpr (Nat.mod_lt off hW), Multiset.singleton_add]

/-- C5: for any dataset and any number of workers `W ≥ 1`, merging the
striped shards with `gather_objects` yields exactly `N` results whose
multiset equals the original dataset (every example exactly once),
and the merged multiset is independent of the order in which workers'
shard results are concatenated. -/
theorem claimC5 {α : Type} (data : List α) (W : Nat) (hW : 1 ≤ W) :
    (gather_objects ((List.range W).map (fun w => stridedShard W w 0 data))).length =
      data.length ∧
    ((gather_objects ((List.range W).map (fun w => stridedShard W w 0 data)) :
        List α) : Multiset α) = (data : Multiset α) ∧
    (∀ ws ws' : List (List α), ws.Perm ws' →
      ((gather_objects ws : List α) : Multiset α) =
        ((gather_objects ws' : List α) : Multiset α)) := by
  have hmain : ((gather_objects ((List.range W).map (fun w => stridedShard W w 0 data)) :
      List α) : Multiset α) = (data : Multiset α) := by
    rw [gather_objects, coe_flatten, List.map_map]
    rw [listRangeMapSum (Multiset.ofList ∘ fun w => stridedShard W w 0 data) W]
    exact stridedShard_sum W hW data 0
  refine ⟨?_, hmain, ?_⟩
  · have := congrArg Multiset.card hmain
    simpa [Multiset.coe_card] using this
  · intro ws ws' hperm
    rw [gather_objects, gather_objects, coe_flatten, coe_flatten]
    exact List.Perm.sum_eq (hperm.map Multiset.ofList)

/-- Witness for C5 at `data = [10, 11, 12]` and `W = 2`. -/
theorem claimC5_witness :
    1 ≤ 2 ∧
    ((gather_objects ((List.range 2).map
        (fun w => stridedShard 2 w 0 ([10, 11, 12] : List Nat)))).length =
      ([10, 11, 12] : List Nat).length ∧
    ((gather_objects ((List.range 2).map
        (fun w => stridedShard 2 w 0 ([10, 11, 12] : List Nat))) : List Nat) : Multiset Nat) =
      (([10, 11, 12] : List Nat) : Multiset Nat) ∧
    (∀ ws ws' : List (List Nat), ws.Perm ws' →
      ((gather_objects ws : List Nat) : Multiset Nat) =
        ((gather_objects ws' : List Nat) : Multiset Nat))) :=
  ⟨by omega, claimC5 ([10, 11, 12] : List Nat) 2 (by omega)⟩

/-- C6 counterexample: with `acc_error = 0` and `acc_correct = 50` the
f1 computation `2*a*b/(a+b)` has denominator `50`, not `0`; it yields
the finite value `0`, not a not-a-number result.  The claim's "either
accuracy is 0 makes the denominator 0" is false. -/
theorem claimC6_counterexample : f1Score 0 50 = some 0 ∧ f1Score 0 50 ≠ none := by
  constructor
  · norm_num [f1Score]
  · norm_num [f1Score]
    exact fun h => Option.noConfusion h

/-- C6 (amended): for non-negative accuracies the f1 computation
yields a not-a-number result exactly when both accuracies are 0 (the
only way the denominator `acc_error + acc_correct` can vanish), and
that NaN is surfaced (modelled as `none`) rather than coerced to 0;
with `acc_error = 0, acc_correct = 50` the result is the finite value
`0`. -/
theorem claimC6_amended (a b : ℚ) (ha : 0 ≤ a) (hb : 0 ≤ b) :
    (f1Score a b = none ↔ a = 0 ∧ b = 0) ∧ f1Score 0 0 = none ∧ f1Score 0 50 = some 0 := by
  refine ⟨?_, by norm_num [f1Score], by norm_num [f1Score]⟩
  constructor
  · intro h
    by_cases hab : a + b = 0
    · exact ⟨by linarith, by linarith⟩
    · simp [f1Score, hab] at h
  · rintro ⟨rfl, rfl⟩
    simp [f1Score]

/-- Witness for the amended C6 at `acc_error = 0, acc_correct = 50`. -/
theorem claimC6_witness :
    (0 : ℚ) ≤ 0 ∧ (0 : ℚ) ≤ 50 ∧
    ((f1Score 0 50 = none ↔ (0 : ℚ) = 0 ∧ (50 : ℚ) = 0) ∧
      f1Score 0 0 = none ∧ f1Score 0 50 = some 0) :=
  ⟨le_refl 0, by norm_num, claimC6_amended 0 50 (le_refl 0) (by norm_num)⟩

/-- C7: the f1 computation is symmetric in its two accuracy inputs. -/
theorem claimC7 (a b : ℚ) (h : a + b ≠ 0) : f1Score a b = f1Score b a := by
  simp only [f1Score, add_comm b a, if_neg h]
  ring_nf

/-- Witness for C7 at accuracies `30` and `60`. -/
theorem claimC7_witness : (30 : ℚ) + 60 ≠ 0 ∧ f1Score 30 60 = f1Score 60 30 :=
  ⟨by norm_num, claimC7 30 60 (by norm_num)⟩

/-- C8: the expected-count sanity check only produces warnings.  The
result files, both accuracies and f1 are identical whatever expected
counts are supplied (the check never gates or alters computation),
a size disagreement produces a non-empty warning list, and matching
counts produce none. -/
theorem claimC8 (e1 e2 e1' e2' : Nat) (g : List ScoredExample) :
    ((aggregate e1 e2 g).errorFile = (aggregate e1' e2' g).errorFile ∧
     (aggregate e1 e2 g).correctFile = (aggregate e1' e2' g).correctFile ∧
     (aggregate e1 e2 g).acc_error = (aggregate e1' e2' g).acc_error ∧
     (aggregate e1 e2 g).acc_correct = (aggregate e1' e2' g).acc_correct ∧
     (aggregate e1 e2 g).f1 = (aggregate e1' e2' g).f1) ∧
    ((g.filter (fun e => e.label != -1)).length ≠ e1 ∨
        (g.filter (fun e => e.label == -1)).length ≠ e2 →
      (aggregate e1 e2 g).warnings ≠ []) ∧
    ((g.filter (fun e => e.label != -1)).length = e1 ∧
        (g.filter (fun e => e.label == -1)).length = e2 →
      (aggregate e1 e2 g).warnings = []) := by
  refine ⟨⟨rfl, rfl, rfl, rfl, rfl⟩, ?_, ?_⟩
  · rintro (h | h)
    · simp [aggregate, h]
    · simp [aggregate, h, List.append_eq_nil]
  · rintro ⟨h1, h2⟩
    simp [aggregate, h1, h2]

/-- Witness for C8: a single fully-correct example against an expected
error count of 3 trips the mismatch warning. -/
theorem claimC8_witness :
    (([ScoredExample.mk "p" [] (-1) (-1) true].filter
        (fun e => e.label != -1)).length ≠ 3 ∨
      ([ScoredExample.mk "p" [] (-1) (-1) true].filter
        (fun e => e.label == -1)).length ≠ 1) ∧
    (aggregate 3 1 [ScoredExample.mk "p" [] (-1) (-1) true]).warnings ≠ [] :=
  ⟨Or.inl (by decide),
    (claimC8 3 1 0 0 [ScoredExample.mk "p" [] (-1) (-1) true]).2.1 (Or.inl (by decide))⟩

/-- The scoring loop produces one scored example per raw example. -/
theorem scoreLoop_length (tok : String → List Nat) (separator : String)
    (logitsRow : Nat → Nat → List Int) :
    ∀ (i : Nat) (batch : List Example),
      (scoreLoop tok separator logitsRow i batch).length = batch.length
  | _, [] => rfl
  | i, _ :: rest => by
      simp [scoreLoop, scoreLoop_length tok separator logitsRow (i + 1) rest]

/-- Entry `k` of the scoring loop's output is the annotated copy of
raw example `k`, scored against logits row `i + k`. -/
theorem scoreLoop_getElem (tok : String → List Nat) (separator : String)
    (logitsRow : Nat → Nat → List Int) :
    ∀ (i k : Nat) (batch : List Example),
      (scoreLoop tok separator logitsRow i batch)[k]? =
        (batch[k]?).map (fun e => scoreOne tok separator (logitsRow (i + k)) e)
  | _, _, [] => by simp [scoreLoop]
  | i, 0, e :: rest => by simp [scoreLoop]
  | i, k + 1, e :: rest => by
      have harith : i + 1 + k = i + (k + 1) := by omega
      simp only [scoreLoop, List.getElem?_cons_succ]
      rw [scoreLoop_getElem tok separator logitsRow (i + 1) k rest, harith]

/-- Stripping the derived fields from the scoring loop's output gives
back exactly the raw batch: no original field is modified. -/
theorem scoreLoop_raw (tok : String → List Nat) (separator : String)
    (logitsRow : Nat → Nat → List Int) :
    ∀ (i : Nat) (batch : List Example),
      (scoreLoop tok separator logitsRow i batch).map
        (fun r => Example.mk r.problem r.steps r.label) = batch
  | _, [] => rfl
  | i, e :: rest => by
      simp [scoreLoop, scoreOne, scoreLoop_raw tok separator logitsRow (i + 1) rest]

/-- C9: scoring writes the derived `prediction` and `match` fields
only onto annotated copies; the output has one row per raw example,
projecting away the derived fields of the output returns the raw
batch unchanged, row `i` is the copy of raw example `i` (fields
verbatim), and the only fields added are `prediction` (the judged
first error) and `match` (`prediction == label`). -/
theorem claimC9 (tok : String → List Nat) (separator : String)
    (logitsRow : Nat → Nat → List Int) (batch : List Example) :
    (scoreBatch tok separator logitsRow batch).length = batch.length ∧
    (scoreBatch tok separator logitsRow batch).map
        (fun r => Example.mk r.problem r.steps r.label) = batch ∧
    (∀ i : Nat, (scoreBatch tok separator logitsRow batch)[i]? =
      (batch[i]?).map (fun e => scoreOne tok separator (logitsRow i) e)) ∧
    (∀ (logits : Nat → List Int) (e : Example),
      (scoreOne tok separator logits e).problem = e.problem ∧
      (scoreOne tok separator logits e).steps = e.steps ∧
      (scoreOne tok separator logits e).label = e.label ∧
      (scoreOne tok separator logits e).prediction = predictFor tok separator logits e ∧
      (scoreOne tok separator logits e).matched =
        (predictFor tok separator logits e == e.label)) := by
  refine ⟨scoreLoop_length tok separator logitsRow 0 batch,
    scoreLoop_raw tok separator logitsRow 0 batch, ?_, ?_⟩
  · intro i
    have h := scoreLoop_getElem tok separator logitsRow 0 i batch
    simpa [scoreBatch] using h
  · intro logits e
    exact ⟨rfl, rfl, rfl, rfl, rfl⟩

end ProcessBench
